import Mathlib

/-!
Shallow embedding of the `full_kg` repository:
* `batch_processor.py` — the file-batching routine `split_input_by_source`,
  modelled as pure functions on lists of filenames;
* the subprocess-orchestration flow of `data_ingestion.py` and
  `test-integration.py`, modelled as state machines over a workspace
  filesystem abstraction;
* the encoding-fallback loop of `parse_html_to_chunks`.
-/

namespace FullKg

/-! ### Strings: embedding of the Python string operations used by the code -/

/-- Embedding of Python `str.split(sep)` at the character level:
`splitOnChar sep l` cuts `l` at every occurrence of `sep`, keeping empty
pieces, so `"a__b".split('_') = ["a", "", "b"]` and `"".split('_') = [""]`. -/
def splitOnChar (sep : Char) : List Char → List (List Char)
  | [] => [[]]
  | c :: cs =>
    if c = sep then [] :: splitOnChar sep cs
    else
      match splitOnChar sep cs with
      | [] => [[c]]
      | p :: ps => (c :: p) :: ps

/-- Embedding of `file.name.split('_')[0]` from `batch_processor.py` line 20:
the grouping key of a filename is the first piece of the underscore split. -/
def prefixKey (name : String) : String :=
  ((splitOnChar '_' name.data).map String.mk).headI

/-- Embedding of the `glob("*.txt")` filter of `batch_processor.py` line 19:
a top-level directory entry is enumerated exactly when its name ends in
`.txt` (the fnmatch pattern `*.txt` matches precisely those names). -/
def matchesTxtGlob (name : String) : Bool :=
  List.isSuffixOf ".txt".data name.data

/-! ### Grouping files by prefix (the dict-building loop, lines 17-23) -/

/-- One iteration of the dict-building loop of `batch_processor.py`
lines 19-23: if the prefix key of the file is already a key, append the file to
the list of that key, otherwise add a new key holding just this file.  Python
dicts preserve insertion order, modelled by the association list. -/
def addFile (acc : List (String × List String)) (f : String) :
    List (String × List String) :=
  if prefixKey f ∈ acc.map Prod.fst then
    acc.map (fun g => if g.1 = prefixKey f then (g.1, g.2 ++ [f]) else g)
  else acc ++ [(prefixKey f, [f])]

/-- The `files_by_prefix` dict of `batch_processor.py` lines 17-23, built by
folding the loop body over the enumerated files. -/
def filesByKey (files : List String) : List (String × List String) :=
  files.foldl addFile []

/-- Recursive characterisation of the grouping: keys appear in order of
first occurrence and each group lists, in enumeration order, every file
whose prefix equals the key.  Proved equal to `filesByKey` below. -/
def groupsSpec : List String → List (String × List String)
  | [] => []
  | f :: fs =>
    (prefixKey f, f :: fs.filter (fun x => decide (prefixKey x = prefixKey f)))
      :: groupsSpec (fs.filter (fun x => decide (prefixKey x ≠ prefixKey f)))
termination_by l => l.length
decreasing_by
  simp only [List.length_cons]
  exact Nat.lt_succ_of_le (List.length_filter_le _ _)

/-! ### Chunking (line 47: `[files[i:i + batch_size] for i in range(0, len(files), batch_size)]`) -/

/-- Fuel-driven worker for `chunkList`; the fuel is an upper bound on the
list length, so the fuel-exhausted branch is never taken. -/
def chunkListFuel (b : Nat) : Nat → List String → List (List String)
  | _, [] => []
  | 0, _ :: _ => []
  | fuel + 1, x :: xs => ((x :: xs).take b) :: chunkListFuel b fuel (xs.drop (b - 1))

/-- Embedding of the chunking list comprehension of `batch_processor.py`
line 47.  For `0 < b` this produces the slices
`l[0:b], l[b:2b], ...`; the source never runs it with `b = 0`
(the Python `range` with step 0 raises). -/
def chunkList (b : Nat) (l : List String) : List (List String) :=
  chunkListFuel b l.length l

/-- Destination subdirectories created for one prefix group
(`batch_processor.py` lines 31-57): a group at or under the batch size gets
the single subdirectory named by the key; a larger group is chunked and the
chunks go to `key_part1`, `key_part2`, ... (`enumerate(chunks, 1)`). -/
def dirsForGroup (b : Nat) (key : String) (files : List String) :
    List (String × List String) :=
  if files.length ≤ b then [(key, files)]
  else
    (chunkList b files).enum.map
      (fun ic => (key ++ "_part" ++ toString (ic.1 + 1), ic.2))

/-- Embedding of `split_input_by_source(input_dir, batch_size)`
(`batch_processor.py` lines 10-59).  `entries` is the list of names of the
top-level entries of the input directory (`Path.glob` is non-recursive, so
nothing inside existing subdirectories is ever enumerated).  The result
lists each created destination subdirectory with the files moved into it,
in creation order. -/
def split_input_by_source (entries : List String) (b : Nat) :
    List (String × List String) :=
  ((filesByKey (entries.filter matchesTxtGlob)).map
    (fun g => dirsForGroup b g.1 g.2)).flatten

/-! ### Lemmas about the string-level embedding -/

theorem splitOnChar_ne_nil (sep : Char) (l : List Char) : splitOnChar sep l ≠ [] := by
  induction l with
  | nil => simp [splitOnChar]
  | cons c cs ih =>
    unfold splitOnChar
    split
    · simp
    · rcases h : splitOnChar sep cs with _ | ⟨p, ps⟩
      · exact absurd h ih
      · simp

theorem headI_splitOnChar (sep : Char) (l : List Char) :
    (splitOnChar sep l).headI = l.takeWhile (fun c => decide (c ≠ sep)) := by
  induction l with
  | nil => simp [splitOnChar]
  | cons c cs ih =>
    unfold splitOnChar
    by_cases hc : c = sep
    · simp [hc, List.takeWhile_cons]
    · rcases h : splitOnChar sep cs with _ | ⟨p, ps⟩
      · exact absurd h (splitOnChar_ne_nil sep cs)
      · rw [h] at ih
        simp only [List.headI] at ih
        simp [hc, List.takeWhile_cons, ih]

/-- The grouping key of `batch_processor.py` is the maximal underscore-free
leading segment of the filename. -/
theorem prefixKey_eq_takeWhile (name : String) :
    prefixKey name = String.mk (name.data.takeWhile (fun c => decide (c ≠ '_'))) := by
  unfold prefixKey
  rcases h : splitOnChar '_' name.data with _ | ⟨p, ps⟩
  · exact absurd h (splitOnChar_ne_nil _ _)
  · have h2 := headI_splitOnChar '_' name.data
    rw [h] at h2
    simp only [List.headI] at h2
    simp [h2]

/-! ### The dict-building loop equals the recursive grouping -/

theorem addFile_map_fst (acc : List (String × List String)) (f : String) :
    (addFile acc f).map Prod.fst =
      if prefixKey f ∈ acc.map Prod.fst then acc.map Prod.fst
      else acc.map Prod.fst ++ [prefixKey f] := by
  unfold addFile
  by_cases hmem : prefixKey f ∈ acc.map Prod.fst
  · rw [if_pos hmem, if_pos hmem, List.map_map]
    apply List.map_congr_left
    intro g _
    by_cases hg : g.1 = prefixKey f <;> simp [hg]
  · rw [if_neg hmem, if_neg hmem]
    simp

theorem addFile_nodup (acc : List (String × List String)) (f : String)
    (h : (acc.map Prod.fst).Nodup) : ((addFile acc f).map Prod.fst).Nodup := by
  rw [addFile_map_fst]
  by_cases hmem : prefixKey f ∈ acc.map Prod.fst
  · simpa [hmem] using h
  · simp [hmem, List.nodup_append, h]

theorem foldl_addFile (files : List String) :
    ∀ acc : List (String × List String), (acc.map Prod.fst).Nodup →
      List.foldl addFile acc files =
        acc.map (fun g => (g.1, g.2 ++ files.filter (fun x => decide (prefixKey x = g.1))))
          ++ groupsSpec (files.filter
              (fun x => decide (prefixKey x ∉ acc.map Prod.fst))) := by
  induction files with
  | nil =>
    intro acc _
    simp [groupsSpec]
  | cons f fs ih =>
    intro acc h
    rw [List.foldl_cons, ih (addFile acc f) (addFile_nodup acc f h)]
    by_cases hmem : prefixKey f ∈ acc.map Prod.fst
    · have hkeys : (addFile acc f).map Prod.fst = acc.map Prod.fst := by
        rw [addFile_map_fst, if_pos hmem]
      rw [hkeys]
      congr 1
      · -- the per-group file lists absorb `f` into its existing group
        have haf : addFile acc f =
            acc.map (fun g => if g.1 = prefixKey f then (g.1, g.2 ++ [f]) else g) := by
          unfold addFile
          rw [if_pos hmem]
        rw [haf, List.map_map]
        apply List.map_congr_left
        intro g _
        by_cases hg : g.1 = prefixKey f
        · simp [hg, List.filter_cons, List.append_assoc]
        · have : decide (prefixKey f = g.1) = false := by
            simp
            intro hc
            exact hg hc.symm
          simp [hg, List.filter_cons, this]
      · congr 1
        simp [List.filter_cons, hmem]
    · have haf : addFile acc f = acc ++ [(prefixKey f, [f])] := by
        unfold addFile
        rw [if_neg hmem]
      rw [haf]
      simp only [List.map_append, List.map_cons, List.map_nil]
      have hcons : fs.filter (fun x => decide (prefixKey x ∉ acc.map Prod.fst ++ [prefixKey f]))
          = (fs.filter (fun x => decide (prefixKey x ∉ acc.map Prod.fst))).filter
              (fun x => decide (prefixKey x ≠ prefixKey f)) := by
        rw [List.filter_filter]
        apply List.filter_congr
        intro x _
        by_cases h1 : prefixKey x = prefixKey f <;>
          by_cases h2 : prefixKey x ∈ acc.map Prod.fst <;>
            simp [h1, h2, List.mem_append]
      have hmain : (f :: fs).filter (fun x => decide (prefixKey x ∉ acc.map Prod.fst))
          = f :: fs.filter (fun x => decide (prefixKey x ∉ acc.map Prod.fst)) := by
        simp [List.filter_cons, hmem]
      rw [hcons, hmain]
      have hgs : groupsSpec (f :: fs.filter (fun x => decide (prefixKey x ∉ acc.map Prod.fst)))
          = (prefixKey f, f :: (fs.filter (fun x => decide (prefixKey x ∉ acc.map Prod.fst))).filter
                (fun x => decide (prefixKey x = prefixKey f)))
            :: groupsSpec ((fs.filter (fun x => decide (prefixKey x ∉ acc.map Prod.fst))).filter
                (fun x => decide (prefixKey x ≠ prefixKey f))) := by
        rw [groupsSpec]
      rw [hgs]
      have hfilt : (fs.filter (fun x => decide (prefixKey x ∉ acc.map Prod.fst))).filter
            (fun x => decide (prefixKey x = prefixKey f))
          = fs.filter (fun x => decide (prefixKey x = prefixKey f)) := by
        rw [List.filter_filter]
        apply List.filter_congr
        intro x _
        by_cases hx : prefixKey x = prefixKey f
        · simp [hx, hmem]
        · simp [hx]
      rw [hfilt]
      have hmap : acc.map (fun g => (g.1, g.2 ++ fs.filter (fun x => decide (prefixKey x = g.1))))
          = acc.map (fun g => (g.1, g.2 ++ (f :: fs).filter (fun x => decide (prefixKey x = g.1)))) := by
        apply List.map_congr_left
        intro g hg
        have hne : decide (prefixKey f = g.1) = false := by
          simp
          intro hc
          exact hmem (hc ▸ List.mem_map_of_mem Prod.fst hg)
        simp [List.filter_cons, hne]
      rw [hmap]
      simp [List.filter_cons]

/-- The dict built by the loop is exactly the recursive grouping. -/
theorem filesByKey_eq_groupsSpec (files : List String) :
    filesByKey files = groupsSpec files := by
  unfold filesByKey
  rw [foldl_addFile files [] (by simp)]
  simp

/-! ### Facts about the grouping -/

theorem groupsSpec_key_eq (l : List String) :
    ∀ g ∈ groupsSpec l, ∀ x ∈ g.2, prefixKey x = g.1 := by
  induction l using groupsSpec.induct with
  | case1 => simp [groupsSpec]
  | case2 f fs ih =>
    intro g hg x hx
    rw [groupsSpec] at hg
    rcases List.mem_cons.mp hg with hg | hg
    · subst hg
      rcases List.mem_cons.mp hx with hx | hx
      · simp [hx]
      · simpa using List.of_mem_filter hx
    · exact ih g hg x hx

theorem groupsSpec_keys_mem (l : List String) :
    ∀ g ∈ groupsSpec l, g.1 ∈ l.map prefixKey := by
  induction l using groupsSpec.induct with
  | case1 => simp [groupsSpec]
  | case2 f fs ih =>
    intro g hg
    rw [groupsSpec] at hg
    rcases List.mem_cons.mp hg with hg | hg
    · subst hg
      simp
    · have := ih g hg
      rcases List.mem_map.mp this with ⟨x, hx, hpk⟩
      exact hpk ▸ List.mem_map_of_mem prefixKey (List.mem_cons_of_mem f (List.mem_of_mem_filter hx))

theorem groupsSpec_nodup_keys (l : List String) : ((groupsSpec l).map Prod.fst).Nodup := by
  induction l using groupsSpec.induct with
  | case1 => simp [groupsSpec]
  | case2 f fs ih =>
    rw [groupsSpec]
    simp only [List.map_cons]
    refine List.nodup_cons.mpr ⟨?_, ih⟩
    intro hc
    rcases List.mem_map.mp hc with ⟨g, hg, hfst⟩
    have hmem := groupsSpec_keys_mem _ g hg
    rw [hfst] at hmem
    rcases List.mem_map.mp hmem with ⟨x, hx, hpk⟩
    have := List.of_mem_filter hx
    simp [hpk] at this

theorem groupsSpec_flatten_perm (l : List String) :
    List.Perm ((groupsSpec l).map Prod.snd).flatten l := by
  induction l using groupsSpec.induct with
  | case1 => simp [groupsSpec]
  | case2 f fs ih =>
    rw [groupsSpec]
    simp only [List.map_cons, List.flatten_cons, List.cons_append]
    refine List.Perm.cons f ?_
    have hnot : fs.filter (fun x => decide (prefixKey x ≠ prefixKey f))
        = fs.filter (fun x => !decide (prefixKey x = prefixKey f)) := by
      apply List.filter_congr
      intro x _
      by_cases hx : prefixKey x = prefixKey f <;> simp [hx]
    refine List.Perm.trans (List.Perm.append_left _ ih) ?_
    rw [hnot]
    exact List.filter_append_perm _ fs

theorem groupsSpec_ne_nil (l : List String) : ∀ g ∈ groupsSpec l, g.2 ≠ [] := by
  induction l using groupsSpec.induct with
  | case1 => simp [groupsSpec]
  | case2 f fs ih =>
    intro g hg
    rw [groupsSpec] at hg
    rcases List.mem_cons.mp hg with hg | hg
    · subst hg
      simp
    · exact ih g hg

theorem groupsSpec_group_eq_filter (l : List String) :
    ∀ g ∈ groupsSpec l, g.2 = l.filter (fun x => decide (prefixKey x = g.1)) := by
  induction l using groupsSpec.induct with
  | case1 => simp [groupsSpec]
  | case2 f fs ih =>
    intro g hg
    rw [groupsSpec] at hg
    rcases List.mem_cons.mp hg with hg | hg
    · subst hg
      simp [List.filter_cons]
    · have hne : g.1 ≠ prefixKey f := by
        intro hc
        have hmem := groupsSpec_keys_mem _ g hg
        rw [hc] at hmem
        rcases List.mem_map.mp hmem with ⟨x, hx, hpk⟩
        have := List.of_mem_filter hx
        simp [hpk] at this
      rw [ih g hg, List.filter_filter, List.filter_cons]
      have hf : decide (prefixKey f = g.1) = false := by
        simp
        intro hc
        exact hne hc.symm
      rw [if_neg (by simp [hf])]
      apply List.filter_congr
      intro x _
      by_cases hx : prefixKey x = g.1
      · simp [hx, hne]
      · simp [hx]

/-! ### Facts about chunking -/

theorem chunkListFuel_congr (b : Nat) :
    ∀ fuel fuel' : Nat, ∀ l : List String, l.length ≤ fuel → l.length ≤ fuel' →
      chunkListFuel b fuel l = chunkListFuel b fuel' l := by
  intro fuel
  induction fuel with
  | zero =>
    intro fuel' l h _
    have hl : l = [] := List.length_eq_zero.mp (by omega)
    subst hl
    cases fuel' <;> rfl
  | succ n ih =>
    intro fuel' l h h'
    cases l with
    | nil => cases fuel' <;> rfl
    | cons x xs =>
      cases fuel' with
      | zero => simp at h'
      | succ m =>
        unfold chunkListFuel
        congr 1
        apply ih
        · simp at h
          have := List.length_drop (b - 1) xs
          omega
        · simp at h'
          have := List.length_drop (b - 1) xs
          omega

theorem chunkList_cons (b : Nat) (hb : 0 < b) (x : String) (xs : List String) :
    chunkList b (x :: xs) = ((x :: xs).take b) :: chunkList b ((x :: xs).drop b) := by
  have hd : xs.drop (b - 1) = (x :: xs).drop b := by
    rcases Nat.exists_eq_add_of_lt hb with ⟨k, hk⟩
    subst hk
    simp
  show chunkListFuel b (x :: xs).length (x :: xs) = _
  rw [show (x :: xs).length = xs.length + 1 from rfl]
  simp only [chunkListFuel]
  congr 1
  rw [hd]
  show _ = chunkListFuel b ((x :: xs).drop b).length ((x :: xs).drop b)
  apply chunkListFuel_congr
  · have := List.length_drop b (x :: xs)
    simp at this ⊢
    omega
  · exact le_refl _

theorem chunkList_flatten (b : Nat) (hb : 0 < b) :
    ∀ n : Nat, ∀ l : List String, l.length ≤ n → (chunkList b l).flatten = l := by
  intro n
  induction n with
  | zero =>
    intro l h
    have hl : l = [] := List.length_eq_zero.mp (by omega)
    subst hl
    rfl
  | succ m ih =>
    intro l h
    cases l with
    | nil => rfl
    | cons x xs =>
      rw [chunkList_cons b hb, List.flatten_cons,
        ih ((x :: xs).drop b) (by simp at h ⊢; omega)]
      exact List.take_append_drop b (x :: xs)

theorem chunkList_sizes (b : Nat) (hb : 0 < b) :
    ∀ n : Nat, ∀ l : List String, l.length ≤ n → ∀ c ∈ chunkList b l, c.length ≤ b := by
  intro n
  induction n with
  | zero =>
    intro l h c hc
    have hl : l = [] := List.length_eq_zero.mp (by omega)
    subst hl
    simp [chunkList, chunkListFuel] at hc
  | succ m ih =>
    intro l h c hc
    cases l with
    | nil => simp [chunkList, chunkListFuel] at hc
    | cons x xs =>
      rw [chunkList_cons b hb] at hc
      rcases List.mem_cons.mp hc with hc | hc
      · subst hc
        simp [List.length_take]
      · exact ih ((x :: xs).drop b) (by simp at h ⊢; omega) c hc

theorem chunkList_count (b : Nat) (hb : 0 < b) :
    ∀ n : Nat, ∀ l : List String, l.length ≤ n →
      (chunkList b l).length = (l.length + b - 1) / b := by
  intro n
  induction n with
  | zero =>
    intro l h
    have hl : l = [] := List.length_eq_zero.mp (by omega)
    subst hl
    simp [chunkList, chunkListFuel]
    rw [Nat.div_eq_of_lt (by omega)]
  | succ m ih =>
    intro l h
    cases l with
    | nil =>
      simp [chunkList, chunkListFuel]
      rw [Nat.div_eq_of_lt (by omega)]
    | cons x xs =>
      rw [chunkList_cons b hb, List.length_cons,
        ih ((x :: xs).drop b) (by simp at h ⊢; omega), List.length_drop]
      have h1 : (x :: xs).length = xs.length + 1 := rfl
      rcases le_or_lt (x :: xs).length b with hle | hlt
      · have e1 : (x :: xs).length - b = 0 := by omega
        rw [e1]
        have e3 : (0 + b - 1) / b = 0 := Nat.div_eq_of_lt (by omega)
        have e2 : (x :: xs).length + b - 1 = ((x :: xs).length - 1) + b := by omega
        rw [e3, e2, Nat.add_div_right _ hb, Nat.div_eq_of_lt (by omega)]
      · have e1 : (x :: xs).length - b + b - 1 = (x :: xs).length - 1 := by omega
        have e2 : (x :: xs).length + b - 1 = ((x :: xs).length - 1) + b := by omega
        rw [e1, e2, Nat.add_div_right _ hb]

/-! ### Facts about the per-group destination directories -/

theorem chunkList_cons_of_ne_nil (b : Nat) (hb : 0 < b) (l : List String) (hne : l ≠ []) :
    chunkList b l = (l.take b) :: chunkList b (l.drop b) := by
  rcases List.exists_cons_of_ne_nil hne with ⟨x, xs, rfl⟩
  exact chunkList_cons b hb x xs

theorem dirsForGroup_flatten (b : Nat) (hb : 0 < b) (key : String) (files : List String) :
    ((dirsForGroup b key files).map Prod.snd).flatten = files := by
  unfold dirsForGroup
  by_cases hle : files.length ≤ b
  · rw [if_pos hle]
    simp
  · rw [if_neg hle, List.map_map]
    have hcomp : (Prod.snd ∘ fun ic : Nat × List String =>
        (key ++ "_part" ++ toString (ic.1 + 1), ic.2)) = Prod.snd := rfl
    rw [hcomp, List.enum_map_snd]
    exact chunkList_flatten b hb files.length files (le_refl _)

theorem dirsForGroup_size_le (b : Nat) (hb : 0 < b) (key : String) (files : List String) :
    ∀ d ∈ dirsForGroup b key files, d.2.length ≤ b := by
  intro d hd
  unfold dirsForGroup at hd
  by_cases hle : files.length ≤ b
  · rw [if_pos hle] at hd
    simp at hd
    rw [hd]
    exact hle
  · rw [if_neg hle] at hd
    rcases List.mem_map.mp hd with ⟨ic, hic, heq⟩
    have hc : ic.2 ∈ chunkList b files := by
      have h1 := List.mem_map_of_mem Prod.snd hic
      rwa [List.enum_map_snd] at h1
    have := chunkList_sizes b hb files.length files (le_refl _) ic.2 hc
    rw [← heq]
    exact this

theorem dirsForGroup_count (b : Nat) (hb : 0 < b) (key : String) (files : List String)
    (hne : files ≠ []) :
    (dirsForGroup b key files).length = (files.length + b - 1) / b := by
  unfold dirsForGroup
  by_cases hle : files.length ≤ b
  · rw [if_pos hle]
    have hpos : 0 < files.length := List.length_pos.mpr hne
    have e2 : files.length + b - 1 = (files.length - 1) + b := by omega
    rw [e2, Nat.add_div_right _ hb, Nat.div_eq_of_lt (by omega)]
    rfl
  · rw [if_neg hle, List.length_map, List.enum_length]
    exact chunkList_count b hb files.length files (le_refl _)

theorem dirsForGroup_names_large (b : Nat) (key : String) (files : List String)
    (hlt : b < files.length) :
    (dirsForGroup b key files).map Prod.fst =
      (List.range (chunkList b files).length).map
        (fun i => key ++ "_part" ++ toString (i + 1)) := by
  unfold dirsForGroup
  rw [if_neg (by omega), List.map_map, ← List.enum_map_fst (chunkList b files), List.map_map]
  rfl

/-! ### Facts about the whole split -/

theorem split_eq_flatten_groups (entries : List String) (b : Nat) :
    split_input_by_source entries b =
      ((groupsSpec (entries.filter matchesTxtGlob)).map
        (fun g => dirsForGroup b g.1 g.2)).flatten := by
  unfold split_input_by_source
  rw [filesByKey_eq_groupsSpec]

theorem split_flatten_perm (entries : List String) (b : Nat) (hb : 0 < b) :
    List.Perm ((split_input_by_source entries b).map Prod.snd).flatten
      (entries.filter matchesTxtGlob) := by
  rw [split_eq_flatten_groups, List.map_flatten, List.map_map, List.flatten_flatten,
    List.map_map]
  have hcomp : ((groupsSpec (entries.filter matchesTxtGlob)).map
      (List.flatten ∘ List.map Prod.snd ∘ fun g => dirsForGroup b g.1 g.2))
      = (groupsSpec (entries.filter matchesTxtGlob)).map Prod.snd := by
    apply List.map_congr_left
    intro g _
    exact dirsForGroup_flatten b hb g.1 g.2
  rw [hcomp]
  exact groupsSpec_flatten_perm (entries.filter matchesTxtGlob)

theorem split_mem_of_mem_group (entries : List String) (b : Nat)
    (g : String × List String)
    (hg : g ∈ filesByKey (entries.filter matchesTxtGlob)) :
    ∀ d ∈ dirsForGroup b g.1 g.2, d ∈ split_input_by_source entries b := by
  intro d hd
  rw [split_eq_flatten_groups]
  rw [filesByKey_eq_groupsSpec] at hg
  exact List.mem_flatten.mpr ⟨dirsForGroup b g.1 g.2,
    List.mem_map_of_mem (fun g => dirsForGroup b g.1 g.2) hg, hd⟩

theorem countP_flatten_one {α : Type} [DecidableEq α] :
    ∀ (L : List (List α)) (x : α), L.flatten.count x = 1 →
      L.countP (fun l => decide (x ∈ l)) = 1 := by
  intro L x
  induction L with
  | nil => simp
  | cons l L ih =>
    intro h
    rw [List.flatten_cons, List.count_append] at h
    rw [List.countP_cons]
    by_cases hx : x ∈ l
    · have h1 : 0 < l.count x := List.count_pos_iff.mpr hx
      have h2 : List.count x L.flatten = 0 := by omega
      have h3 : L.countP (fun m => decide (x ∈ m)) = 0 := by
        rw [List.countP_eq_zero]
        intro m hm
        simp only [decide_eq_true_eq]
        intro hxm
        have hmem : x ∈ L.flatten := List.mem_flatten.mpr ⟨m, hm, hxm⟩
        exact absurd hmem (List.count_eq_zero.mp h2)
      simp [hx, h3]
    · have h1 : l.count x = 0 := List.count_eq_zero.mpr hx
      simp only [hx, decide_False, if_false, Nat.add_zero]
      exact ih (by omega)

theorem split_countP_one (entries : List String) (b : Nat) (hb : 0 < b)
    (hnd : entries.Nodup) (f : String) (hf : f ∈ entries.filter matchesTxtGlob) :
    (split_input_by_source entries b).countP (fun d => decide (f ∈ d.2)) = 1 := by
  have hperm := split_flatten_perm entries b hb
  have hnd' : (entries.filter matchesTxtGlob).Nodup := hnd.filter _
  have h1 : (entries.filter matchesTxtGlob).count f = 1 :=
    List.count_eq_one_of_mem hnd' hf
  have h2 : ((split_input_by_source entries b).map Prod.snd).flatten.count f = 1 := by
    rw [hperm.count_eq f]
    exact h1
  have h3 := countP_flatten_one ((split_input_by_source entries b).map Prod.snd) f h2
  rw [List.countP_map] at h3
  exact h3

/-! ### The 20,000-file example of the spec -/

theorem dirs_of_20000 (l : List String) (hl : l.length = 20000) :
    (dirsForGroup 7500 "PRELIMusc10" l).map (fun d => (d.1, d.2.length))
      = [("PRELIMusc10_part1", 7500), ("PRELIMusc10_part2", 7500),
         ("PRELIMusc10_part3", 5000)] := by
  have hb : (0 : Nat) < 7500 := by norm_num
  have hne1 : l ≠ [] := by
    intro h
    rw [h] at hl
    simp at hl
  have h2 : (l.drop 7500).length = 12500 := by rw [List.length_drop, hl]
  have hne2 : l.drop 7500 ≠ [] := by
    intro h
    rw [h] at h2
    simp at h2
  have h3 : ((l.drop 7500).drop 7500).length = 5000 := by rw [List.length_drop, h2]
  have hne3 : (l.drop 7500).drop 7500 ≠ [] := by
    intro h
    rw [h] at h3
    simp at h3
  have c3 : chunkList 7500 ((l.drop 7500).drop 7500) = [(l.drop 7500).drop 7500] := by
    have ht : ((l.drop 7500).drop 7500).length ≤ 7500 := by omega
    rw [chunkList_cons_of_ne_nil 7500 hb _ hne3, List.take_of_length_le ht,
      List.drop_eq_nil_of_le ht]
    rfl
  unfold dirsForGroup
  rw [if_neg (by omega), chunkList_cons_of_ne_nil 7500 hb l hne1,
    chunkList_cons_of_ne_nil 7500 hb (l.drop 7500) hne2, c3]
  simp only [List.enum, List.enumFrom, List.map_cons, List.map_nil]
  have t1 : (l.take 7500).length = 7500 := by
    rw [List.length_take]
    omega
  have t2 : ((l.drop 7500).take 7500).length = 7500 := by
    rw [List.length_take]
    omega
  simp only [t1, t2, h3]
  refine List.ext_getElem? ?_
  intro i
  match i with
  | 0 => simp; decide
  | 1 => simp; decide
  | 2 => simp; decide
  | (n + 3) => simp

/-! ### Characterisation of the grouping key -/

/-- Formalisation of the phrase of the spec for the grouping key: the substring
of the filename preceding its first underscore (the whole filename when it
contains no underscore). -/
def substrBeforeFirstUnderscore (name : String) : String :=
  String.mk (name.data.takeWhile (fun c => decide (c ≠ '_')))

theorem prefixKey_no_underscore (name : String) :
    ¬ '_' ∈ (prefixKey name).data := by
  rw [prefixKey_eq_takeWhile]
  intro h
  have := List.mem_takeWhile_imp h
  simp at this

theorem prefixKey_decomp (name : String) (h : '_' ∈ name.data) :
    ∃ rest : List Char, name.data = (prefixKey name).data ++ '_' :: rest := by
  rw [prefixKey_eq_takeWhile]
  have hd : name.data.dropWhile (fun c => decide (c ≠ '_')) ≠ [] := by
    intro hnil
    have hself : name.data.takeWhile (fun c => decide (c ≠ '_')) = name.data := by
      have := List.takeWhile_append_dropWhile (fun c => decide (c ≠ '_')) name.data
      rw [hnil, List.append_nil] at this
      exact this
    have := List.takeWhile_eq_self_iff.mp hself '_' h
    simp at this
  have hheadeq : (name.data.dropWhile (fun c => decide (c ≠ '_'))).head hd = '_' := by
    have hhead := List.head_dropWhile_not (fun c => decide (c ≠ '_')) name.data hd
    simpa using hhead
  have hdw : name.data.dropWhile (fun c => decide (c ≠ '_'))
      = '_' :: (name.data.dropWhile (fun c => decide (c ≠ '_'))).tail := by
    conv_lhs => rw [← List.head_cons_tail (name.data.dropWhile (fun c => decide (c ≠ '_'))) hd]
    rw [hheadeq]
  refine ⟨(name.data.dropWhile (fun c => decide (c ≠ '_'))).tail, ?_⟩
  have hsplit := List.takeWhile_append_dropWhile (fun c => decide (c ≠ '_')) name.data
  show name.data = (name.data.takeWhile (fun c => decide (c ≠ '_')))
      ++ '_' :: (name.data.dropWhile (fun c => decide (c ≠ '_'))).tail
  rw [← hdw]
  exact hsplit.symm

theorem prefixKey_of_no_underscore (name : String) (h : ¬ '_' ∈ name.data) :
    prefixKey name = name := by
  rw [prefixKey_eq_takeWhile]
  have : name.data.takeWhile (fun c => decide (c ≠ '_')) = name.data := by
    rw [List.takeWhile_eq_self_iff]
    intro x hx
    simp
    intro hc
    exact h (hc ▸ hx)
  rw [this]

theorem nodup_keys_unique {L : List (String × List String)}
    (h : (L.map Prod.fst).Nodup) {g₁ g₂ : String × List String}
    (h₁ : g₁ ∈ L) (h₂ : g₂ ∈ L) (hk : g₁.1 = g₂.1) : g₁ = g₂ := by
  induction L with
  | nil => simp at h₁
  | cons a L ih =>
    rw [List.map_cons, List.nodup_cons] at h
    rcases List.mem_cons.mp h₁ with h₁ | h₁ <;> rcases List.mem_cons.mp h₂ with h₂ | h₂
    · rw [h₁, h₂]
    · exfalso
      apply h.1
      rw [← h₁, hk]
      exact List.mem_map_of_mem Prod.fst h₂
    · exfalso
      apply h.1
      rw [← h₂, ← hk]
      exact List.mem_map_of_mem Prod.fst h₁
    · exact ih h.2 h₁ h₂

theorem same_group_iff (files : List String) (f g : String)
    (hf : f ∈ files) (hg : g ∈ files) :
    (∃ grp ∈ groupsSpec files, f ∈ grp.2 ∧ g ∈ grp.2) ↔ prefixKey f = prefixKey g := by
  constructor
  · rintro ⟨grp, hgrp, hfm, hgm⟩
    rw [groupsSpec_key_eq files grp hgrp f hfm, groupsSpec_key_eq files grp hgrp g hgm]
  · intro hpk
    have hcov : ∀ x ∈ files, ∃ grp ∈ groupsSpec files, x ∈ grp.2 := by
      intro x hx
      have hperm := groupsSpec_flatten_perm files
      have hxf : x ∈ ((groupsSpec files).map Prod.snd).flatten := hperm.mem_iff.mpr hx
      rcases List.mem_flatten.mp hxf with ⟨m, hm, hxm⟩
      rcases List.mem_map.mp hm with ⟨grp, hgrp, hms⟩
      exact ⟨grp, hgrp, hms ▸ hxm⟩
    rcases hcov f hf with ⟨grp₁, hgrp₁, hf₁⟩
    rcases hcov g hg with ⟨grp₂, hgrp₂, hg₂⟩
    have hk : grp₁.1 = grp₂.1 := by
      rw [← groupsSpec_key_eq files grp₁ hgrp₁ f hf₁, ← groupsSpec_key_eq files grp₂ hgrp₂ g hg₂]
      exact hpk
    have := nodup_keys_unique (groupsSpec_nodup_keys files) hgrp₁ hgrp₂ hk
    exact ⟨grp₁, hgrp₁, hf₁, this ▸ hg₂⟩

/-! ### Injectivity of the numeral printer

The part-directory names embed `toString (i + 1)`; distinctness of the
planned destination names needs `Nat.repr` to be injective, proved here by
reading the decimal digits back. -/

/-- Numeric value of a decimal digit character. -/
def digitVal (c : Char) : Nat := c.toNat - 48

theorem digitVal_digitChar (d : Nat) (hd : d < 10) :
    digitVal (Nat.digitChar d) = d := by
  interval_cases d <;> decide

theorem toDigitsCore_append10 :
    ∀ fuel n : Nat, ∀ ds : List Char, n < fuel →
      Nat.toDigitsCore 10 fuel n ds = Nat.toDigitsCore 10 fuel n [] ++ ds := by
  intro fuel
  induction fuel with
  | zero =>
    intro n ds h
    omega
  | succ f ih =>
    intro n ds h
    by_cases h0 : n / 10 = 0
    · simp [Nat.toDigitsCore, h0]
    · have hrec : n / 10 < f := by omega
      simp only [Nat.toDigitsCore, h0, if_false]
      rw [ih (n / 10) (Nat.digitChar (n % 10) :: ds) hrec,
        ih (n / 10) [Nat.digitChar (n % 10)] hrec, List.append_assoc]
      rfl

/-- Value of a digit string read most significant digit first, starting
from the accumulator `a`. -/
def parseDigits (a : Nat) (l : List Char) : Nat :=
  l.foldl (fun acc c => acc * 10 + digitVal c) a

theorem parseDigits_toDigitsCore :
    ∀ fuel n a : Nat, n < fuel →
      parseDigits a (Nat.toDigitsCore 10 fuel n [])
        = a * 10 ^ (Nat.toDigitsCore 10 fuel n []).length + n := by
  intro fuel
  induction fuel with
  | zero =>
    intro n a h
    omega
  | succ f ih =>
    intro n a h
    by_cases h0 : n / 10 = 0
    · simp only [Nat.toDigitsCore, h0, if_true]
      have hn : n < 10 := by omega
      simp [parseDigits, Nat.mod_eq_of_lt hn, digitVal_digitChar n hn]
    · have hrec : n / 10 < f := by omega
      simp only [Nat.toDigitsCore, h0, if_false]
      rw [toDigitsCore_append10 f (n / 10) [Nat.digitChar (n % 10)] hrec]
      unfold parseDigits
      rw [List.foldl_append]
      have hX := ih (n / 10) a hrec
      unfold parseDigits at hX
      rw [hX]
      simp only [List.foldl, List.length_append, List.length_cons, List.length_nil]
      rw [digitVal_digitChar (n % 10) (by omega), pow_succ, ← Nat.mul_assoc]
      have hdm := Nat.div_add_mod n 10
      generalize a * 10 ^ (Nat.toDigitsCore 10 f (n / 10) []).length = A
      omega

theorem repr_injective (m n : Nat) (h : Nat.repr m = Nat.repr n) : m = n := by
  have hd : Nat.toDigitsCore 10 (m + 1) m [] = Nat.toDigitsCore 10 (n + 1) n [] := by
    have := congrArg String.data h
    simpa [Nat.repr, Nat.toDigits, List.asString] using this
  have hm := parseDigits_toDigitsCore (m + 1) m 0 (by omega)
  have hn := parseDigits_toDigitsCore (n + 1) n 0 (by omega)
  rw [hd] at hm
  simp only [Nat.zero_mul, Nat.zero_add] at hm hn
  omega

theorem partName_inj (key : String) (i j : Nat)
    (h : key ++ "_part" ++ toString (i + 1) = key ++ "_part" ++ toString (j + 1)) :
    i = j := by
  have hd := congrArg String.data h
  simp only [String.data_append] at hd
  have h2 := List.append_cancel_left hd
  have h3 : toString (i + 1) = (toString (j + 1) : String) := by
    have : (toString (i + 1) : String) = ⟨(toString (i + 1) : String).data⟩ := rfl
    rw [this, h2]
  have h4 : Nat.repr (i + 1) = Nat.repr (j + 1) := h3
  have := repr_injective (i + 1) (j + 1) h4
  omega

/-! ### Distinctness of the planned destination names -/

theorem substr_of_no_underscore (key : String) (hk : ¬ '_' ∈ key.data) :
    substrBeforeFirstUnderscore key = key :=
  (prefixKey_eq_takeWhile key).symm.trans (prefixKey_of_no_underscore key hk)

theorem base_of_partName (key : String) (hk : ¬ '_' ∈ key.data) (s : String) :
    substrBeforeFirstUnderscore (key ++ "_part" ++ s) = key := by
  unfold substrBeforeFirstUnderscore
  rw [String.data_append, String.data_append, List.append_assoc]
  have h1 : List.takeWhile (fun c => decide (c ≠ '_')) key.data = key.data := by
    rw [List.takeWhile_eq_self_iff]
    intro x hx
    simp
    intro hc
    exact hk (hc ▸ hx)
  rw [List.takeWhile_append, h1, if_pos rfl]
  have h2 : "_part".data ++ s.data = '_' :: ("part".data ++ s.data) := rfl
  rw [h2]
  simp [List.takeWhile_cons]

theorem dirsForGroup_base (b : Nat) (key : String) (hk : ¬ '_' ∈ key.data)
    (files : List String) :
    ∀ nm ∈ (dirsForGroup b key files).map Prod.fst,
      substrBeforeFirstUnderscore nm = key := by
  intro nm hnm
  unfold dirsForGroup at hnm
  by_cases hle : files.length ≤ b
  · rw [if_pos hle] at hnm
    simp at hnm
    rw [hnm]
    exact substr_of_no_underscore key hk
  · rw [if_neg hle] at hnm
    rcases List.mem_map.mp hnm with ⟨d, hd, rfl⟩
    rcases List.mem_map.mp hd with ⟨ic, _, rfl⟩
    exact base_of_partName key hk (toString (ic.1 + 1))

theorem dirsForGroup_names_nodup (b : Nat) (key : String) (files : List String) :
    ((dirsForGroup b key files).map Prod.fst).Nodup := by
  unfold dirsForGroup
  by_cases hle : files.length ≤ b
  · rw [if_pos hle]
    simp
  · rw [if_neg hle]
    have hnames : ((chunkList b files).enum.map
          (fun ic => (key ++ "_part" ++ toString (ic.1 + 1), ic.2))).map Prod.fst
        = (List.range (chunkList b files).length).map
            (fun i => key ++ "_part" ++ toString (i + 1)) := by
      rw [List.map_map, ← List.enum_map_fst (chunkList b files), List.map_map]
      rfl
    rw [hnames]
    apply List.Nodup.map _ (List.nodup_range _)
    intro i j hij
    exact partName_inj key i j hij

theorem groupsSpec_key_no_underscore (l : List String) :
    ∀ g ∈ groupsSpec l, ¬ '_' ∈ (g.1 : String).data := by
  intro g hg
  rcases List.mem_map.mp (groupsSpec_keys_mem l g hg) with ⟨x, _, hpk⟩
  rw [← hpk]
  exact prefixKey_no_underscore x

theorem split_dest_names_nodup (entries : List String) (b : Nat) :
    ((split_input_by_source entries b).map Prod.fst).Nodup := by
  rw [split_eq_flatten_groups, List.map_flatten, List.map_map, List.nodup_flatten]
  constructor
  · intro l hl
    rcases List.mem_map.mp hl with ⟨g, _, rfl⟩
    exact dirsForGroup_names_nodup b g.1 g.2
  · rw [List.pairwise_map]
    have hkeys := groupsSpec_nodup_keys (entries.filter matchesTxtGlob)
    have hpair : List.Pairwise (fun g1 g2 : String × List String => g1.1 ≠ g2.1)
        (groupsSpec (entries.filter matchesTxtGlob)) := List.pairwise_map.mp hkeys
    refine List.Pairwise.imp_of_mem ?_ hpair
    intro g1 g2 hg1 hg2 hne
    intro nm h1 h2
    have hb1 := dirsForGroup_base b g1.1
      (groupsSpec_key_no_underscore _ g1 hg1) g1.2 nm h1
    have hb2 := dirsForGroup_base b g2.1
      (groupsSpec_key_no_underscore _ g2 hg2) g2.2 nm h2
    exact hne (hb1 ▸ hb2 ▸ rfl)

/-! ### Stateful model of a run of split_input_by_source

The pure `split_input_by_source` computes the planned destinations from
the glob listing taken before any mutation.  The stateful model below
executes that plan against a directory state, keeping what the pure model
drops: `Path.mkdir(exist_ok=True)` raises FileExistsError when the
destination path is occupied by an existing regular file, and
`shutil.move` silently replaces (os.rename) a same-named file already
present inside a pre-existing destination directory. -/

theorem chunkList_sublist (b : Nat) (hb : 0 < b) :
    ∀ n : Nat, ∀ l : List String, l.length ≤ n →
      ∀ c ∈ chunkList b l, c.Sublist l := by
  intro n
  induction n with
  | zero =>
    intro l h c hc
    have hl : l = [] := List.length_eq_zero.mp (by omega)
    subst hl
    simp [chunkList, chunkListFuel] at hc
  | succ m ih =>
    intro l h c hc
    cases l with
    | nil => simp [chunkList, chunkListFuel] at hc
    | cons x xs =>
      rw [chunkList_cons b hb] at hc
      rcases List.mem_cons.mp hc with hc | hc
      · subst hc
        exact List.take_sublist b (x :: xs)
      · exact (ih ((x :: xs).drop b) (by simp at h ⊢; omega) c hc).trans
          (List.drop_sublist b (x :: xs))

theorem split_dest_contents_nodup (entries : List String) (b : Nat) (hb : 0 < b)
    (hnd : entries.Nodup) :
    ∀ d ∈ split_input_by_source entries b, d.2.Nodup := by
  intro d hd
  rw [split_eq_flatten_groups] at hd
  rcases List.mem_flatten.mp hd with ⟨dl, hdl, hddl⟩
  rcases List.mem_map.mp hdl with ⟨g, hg, rfl⟩
  have hgnd : g.2.Nodup := by
    rw [groupsSpec_group_eq_filter _ g hg]
    exact (hnd.filter _).filter _
  unfold dirsForGroup at hddl
  by_cases hle : g.2.length ≤ b
  · rw [if_pos hle] at hddl
    simp at hddl
    rw [hddl]
    exact hgnd
  · rw [if_neg hle] at hddl
    rcases List.mem_map.mp hddl with ⟨ic, hic, rfl⟩
    have hc : ic.2 ∈ chunkList b g.2 := by
      have h1 := List.mem_map_of_mem Prod.snd hic
      rwa [List.enum_map_snd] at h1
    exact (chunkList_sublist b hb g.2.length g.2 (le_refl _) ic.2 hc).nodup hgnd

/-- State of the input directory: top-level regular files, and existing
subdirectories with the files inside them.  Each list entry stands for a
distinct filesystem object, so a same-named entry in two places is two
different files.  Subdirectories are modelled flat, and the model covers
states where no subdirectory name matches the `*.txt` glob (a matching
directory would itself be enumerated and moved by the source). -/
structure InputDir where
  files : List String
  subdirs : List (String × List String)
  deriving DecidableEq

/-- Outcome of one run on a directory state: normal completion, or the
uncaught FileExistsError that `Path.mkdir(exist_ok=True)` raises when the
destination path is occupied by an existing regular file.  The state at
the moment of the error is kept: earlier destinations stay mutated. -/
inductive RunResult where
  | ok (final : InputDir)
  | mkdirError (st : InputDir) (dirName : String)
  deriving DecidableEq

/-- Whether the run reached the end of the destination loop. -/
def RunResult.completed : RunResult → Bool
  | RunResult.ok _ => true
  | RunResult.mkdirError _ _ => false

/-- Subdirectories present when the run stops, normally or not. -/
def resultSubdirs : RunResult → List (String × List String)
  | RunResult.ok st => st.subdirs
  | RunResult.mkdirError st _ => st.subdirs

/-- Total number of files anywhere in the directory tree. -/
def totalFiles (st : InputDir) : Nat :=
  st.files.length + (st.subdirs.map (fun d => d.2.length)).sum

/-- Effect of one `shutil.move` of file `f` into a directory with the
given contents: os.rename silently replaces an existing same-named file. -/
def movedInto (contents : List String) (f : String) : List String :=
  contents.filter (fun g => decide (g ≠ f)) ++ [f]

/-- Moving a batch of files into a directory, one `shutil.move` at a time. -/
def movedAll (contents : List String) (toMove : List String) : List String :=
  toMove.foldl movedInto contents

/-- One iteration of the destination loop of `split_input_by_source`
(batch_processor.py lines 36-41 and 49-55): `subdir.mkdir(exist_ok=True)`
raises FileExistsError when the path is an existing file, passes when it
is an existing directory, and creates it otherwise; then each file of the
batch is moved in, leaving the top level and entering the destination. -/
def processDest (st : InputDir) (name : String) (toMove : List String) :
    Option InputDir :=
  if name ∈ st.files then none
  else
    let subdirs1 := if st.subdirs.any (fun d => decide (d.1 = name)) then st.subdirs
                    else st.subdirs ++ [(name, [])]
    some { files := st.files.filter (fun g => decide (¬ g ∈ toMove))
           subdirs := subdirs1.map
             (fun d => if d.1 = name then (d.1, movedAll d.2 toMove) else d) }

/-- Runs the destination loop; a FileExistsError aborts the script with
the directories processed so far already mutated. -/
def runDests (st : InputDir) : List (String × List String) → RunResult
  | [] => RunResult.ok st
  | (name, toMove) :: rest =>
    match processDest st name toMove with
    | none => RunResult.mkdirError st name
    | some st2 => runDests st2 rest

/-- Stateful embedding of a full run of `split_input_by_source`: the
grouping and chunking read only the initial glob listing, so the run
executes the pure plan destination by destination. -/
def runSplit (st : InputDir) (b : Nat) : RunResult :=
  runDests st (split_input_by_source st.files b)

theorem movedAll_fresh :
    ∀ (toMove c : List String), toMove.Nodup → (∀ f ∈ toMove, ¬ f ∈ c) →
      movedAll c toMove = c ++ toMove := by
  intro toMove
  induction toMove with
  | nil =>
    intro c _ _
    simp [movedAll]
  | cons f mv ih =>
    intro c hnd hdisj
    have h1 : movedInto c f = c ++ [f] := by
      unfold movedInto
      congr 1
      rw [List.filter_eq_self]
      intro x hx
      simp
      intro hc
      exact hdisj f (List.mem_cons_self f mv) (hc ▸ hx)
    have h2 : ∀ g ∈ mv, ¬ g ∈ c ++ [f] := by
      intro g hg h
      rcases List.mem_append.mp h with hgc | hgf
      · exact hdisj g (List.mem_cons_of_mem f hg) hgc
      · rw [List.mem_singleton] at hgf
        exact (List.nodup_cons.mp hnd).1 (hgf ▸ hg)
    calc movedAll c (f :: mv) = movedAll (c ++ [f]) mv := by
          unfold movedAll
          rw [List.foldl_cons, h1]
      _ = (c ++ [f]) ++ mv := ih (c ++ [f]) (List.nodup_cons.mp hnd).2 h2
      _ = c ++ f :: mv := by simp

theorem processDest_mem_files (st : InputDir) (nm : String) (mv : List String)
    (st2 : InputDir) (h : processDest st nm mv = some st2) (f : String)
    (hf : f ∈ st.files) (hfmv : ¬ f ∈ mv) : f ∈ st2.files := by
  unfold processDest at h
  by_cases hc : nm ∈ st.files
  · rw [if_pos hc] at h
    simp at h
  · rw [if_neg hc] at h
    simp only [Option.some.injEq] at h
    rw [← h]
    simp [List.mem_filter, hf, hfmv]

theorem runDests_never_ok :
    ∀ (pre : List (String × List String)) (nm : String) (mv : List String)
      (post : List (String × List String)) (st : InputDir),
      nm ∈ st.files → (∀ p ∈ pre, ¬ nm ∈ p.2) →
      (runDests st (pre ++ (nm, mv) :: post)).completed = false := by
  intro pre
  induction pre with
  | nil =>
    intro nm mv post st hmem _
    have hnone : processDest st nm mv = none := by
      unfold processDest
      rw [if_pos hmem]
    simp only [List.nil_append, runDests, hnone]
    rfl
  | cons p pre ih =>
    intro nm mv post st hmem hpre
    obtain ⟨pn, pmv⟩ := p
    simp only [List.cons_append, runDests]
    cases hp : processDest st pn pmv with
    | none => rfl
    | some st2 =>
      exact ih nm mv post st2
        (processDest_mem_files st pn pmv st2 hp nm hmem (hpre (pn, pmv) (by simp)))
        (fun q hq => hpre q (List.mem_cons_of_mem _ hq))

theorem runDests_fresh_ok :
    ∀ (dests : List (String × List String)) (st : InputDir),
      (dests.map Prod.fst).Nodup →
      (∀ d ∈ dests, d.2.Nodup) →
      (∀ d ∈ dests, ¬ d.1 ∈ st.files ∧ ¬ d.1 ∈ st.subdirs.map Prod.fst) →
      runDests st dests = RunResult.ok
        ⟨st.files.filter (fun f => decide (¬ ∃ d ∈ dests, f ∈ d.2)),
         st.subdirs ++ dests⟩ := by
  intro dests
  induction dests with
  | nil =>
    intro st _ _ _
    simp [runDests]
  | cons hd rest ih =>
    intro st hnames hcont hfresh
    obtain ⟨nm, mv⟩ := hd
    have hnm_files : ¬ nm ∈ st.files := (hfresh (nm, mv) (by simp)).1
    have hnm_dirs : ¬ nm ∈ st.subdirs.map Prod.fst := (hfresh (nm, mv) (by simp)).2
    have hany : st.subdirs.any (fun d => decide (d.1 = nm)) = false := by
      rw [List.any_eq_false]
      intro d hdm
      simp
      intro hc
      exact hnm_dirs (hc ▸ List.mem_map_of_mem Prod.fst hdm)
    have hmvfresh : movedAll [] mv = mv := by
      rw [movedAll_fresh mv [] (hcont (nm, mv) (by simp)) (by simp)]
      rfl
    have hproc : processDest st nm mv = some
        ⟨st.files.filter (fun g => decide (¬ g ∈ mv)), st.subdirs ++ [(nm, mv)]⟩ := by
      unfold processDest
      rw [if_neg hnm_files]
      simp only [hany, Bool.false_eq_true, if_false, Option.some.injEq, InputDir.mk.injEq]
      refine ⟨trivial, ?_⟩
      rw [List.map_append]
      have h1 : st.subdirs.map (fun d => if d.1 = nm then (d.1, movedAll d.2 mv) else d)
          = st.subdirs.map (fun d => d) := by
        apply List.map_congr_left
        intro d hd
        have hne : d.1 ≠ nm := by
          intro hc
          exact hnm_dirs (hc ▸ List.mem_map_of_mem Prod.fst hd)
        simp [hne]
      rw [h1, List.map_id']
      simp [hmvfresh]
    have hnames' : (rest.map Prod.fst).Nodup := by
      rw [List.map_cons, List.nodup_cons] at hnames
      exact hnames.2
    have hnmrest : ¬ nm ∈ rest.map Prod.fst := by
      rw [List.map_cons, List.nodup_cons] at hnames
      exact hnames.1
    have hcont' : ∀ d ∈ rest, d.2.Nodup :=
      fun d hd => hcont d (List.mem_cons_of_mem _ hd)
    have hfresh' : ∀ d ∈ rest,
        ¬ d.1 ∈ (st.files.filter (fun g => decide (¬ g ∈ mv)))
        ∧ ¬ d.1 ∈ ((st.subdirs ++ [(nm, mv)]).map Prod.fst) := by
      intro d hd
      constructor
      · intro hmem
        exact (hfresh d (List.mem_cons_of_mem _ hd)).1 (List.mem_of_mem_filter hmem)
      · intro hmem
        rw [List.map_append] at hmem
        rcases List.mem_append.mp hmem with hmem | hmem
        · exact (hfresh d (List.mem_cons_of_mem _ hd)).2 hmem
        · simp at hmem
          exact hnmrest (hmem ▸ List.mem_map_of_mem Prod.fst hd)
    simp only [runDests, hproc]
    rw [ih ⟨st.files.filter (fun g => decide (¬ g ∈ mv)), st.subdirs ++ [(nm, mv)]⟩
      hnames' hcont' hfresh']
    simp only [RunResult.ok.injEq, InputDir.mk.injEq]
    constructor
    · rw [List.filter_filter]
      apply List.filter_congr
      intro f _
      by_cases hfm : f ∈ mv
      · simp [hfm]
      · by_cases hfr : ∃ d ∈ rest, f ∈ d.2
        · simp [hfm, hfr]
        · simp [hfm, hfr]
    · rw [List.append_assoc]
      rfl

/-- When no planned destination name is occupied by an existing top-level
file or directory, the run completes: the matching files leave the top
level, the planned destinations are appended as fresh subdirectories with
exactly the planned contents, and everything else is untouched. -/
theorem runSplit_no_collision (st : InputDir) (b : Nat) (hb : 0 < b)
    (hnd : st.files.Nodup)
    (hfresh : ∀ d ∈ split_input_by_source st.files b,
        ¬ d.1 ∈ st.files ∧ ¬ d.1 ∈ st.subdirs.map Prod.fst) :
    runSplit st b = RunResult.ok
      ⟨st.files.filter (fun f => !(matchesTxtGlob f)),
       st.subdirs ++ split_input_by_source st.files b⟩ := by
  unfold runSplit
  rw [runDests_fresh_ok (split_input_by_source st.files b) st
    (split_dest_names_nodup st.files b)
    (split_dest_contents_nodup st.files b hb hnd) hfresh]
  simp only [RunResult.ok.injEq, InputDir.mk.injEq]
  refine ⟨?_, trivial⟩
  apply List.filter_congr
  intro f hf
  have hiff : (∃ d ∈ split_input_by_source st.files b, f ∈ d.2)
      ↔ matchesTxtGlob f = true := by
    constructor
    · rintro ⟨d, hd, hfd⟩
      have hfl : f ∈ ((split_input_by_source st.files b).map Prod.snd).flatten :=
        List.mem_flatten.mpr ⟨d.2, List.mem_map_of_mem Prod.snd hd, hfd⟩
      exact List.of_mem_filter ((split_flatten_perm st.files b hb).mem_iff.mp hfl)
    · intro hm
      have htxt : f ∈ st.files.filter matchesTxtGlob := List.mem_filter.mpr ⟨hf, hm⟩
      have hfl := (split_flatten_perm st.files b hb).mem_iff.mpr htxt
      rcases List.mem_flatten.mp hfl with ⟨m, hmm, hfm⟩
      rcases List.mem_map.mp hmm with ⟨d, hd, rfl⟩
      exact ⟨d, hd, hfm⟩
  by_cases hmf : matchesTxtGlob f
  · simp [hmf, hiff]
  · simp [hmf, hiff]

/-! ### Claim theorems for the batch splitter -/

/-- C1: for every input listing with distinct filenames and positive batch
size, `split_input_by_source` puts each enumerated file into exactly one
created destination subdirectory: the moved files are a permutation of the
enumerated files (none duplicated, none dropped), the total count is
preserved, and each enumerated file lies in exactly one destination. -/
theorem split_moves_each_file_once (entries : List String) (b : Nat)
    (hb : 0 < b) (hnd : entries.Nodup) :
    List.Perm ((split_input_by_source entries b).map Prod.snd).flatten
      (entries.filter matchesTxtGlob)
    ∧ ((split_input_by_source entries b).map Prod.snd).flatten.length
        = (entries.filter matchesTxtGlob).length
    ∧ ∀ f ∈ entries.filter matchesTxtGlob,
        (split_input_by_source entries b).countP (fun d => decide (f ∈ d.2)) = 1 := by
  have hperm := split_flatten_perm entries b hb
  refine ⟨hperm, hperm.length_eq, ?_⟩
  intro f hf
  have hnd' : (entries.filter matchesTxtGlob).Nodup := hnd.filter _
  have h1 : (entries.filter matchesTxtGlob).count f = 1 :=
    List.count_eq_one_of_mem hnd' hf
  have h2 : ((split_input_by_source entries b).map Prod.snd).flatten.count f = 1 := by
    rw [hperm.count_eq f]
    exact h1
  have h3 := countP_flatten_one ((split_input_by_source entries b).map Prod.snd) f h2
  rw [List.countP_map] at h3
  exact h3

/-- C1 witness at a concrete input. -/
theorem split_moves_each_file_once_witness :
    (split_input_by_source ["A_1.txt", "B.txt"] 2).countP
      (fun d => decide ("A_1.txt" ∈ d.2)) = 1 :=
  (split_moves_each_file_once ["A_1.txt", "B.txt"] 2 (by decide) (by decide)).2.2
    "A_1.txt" (by decide)

/-- C2: for every input listing and positive batch size, no destination
subdirectory created by `split_input_by_source` receives more files than
the batch size. -/
theorem split_batch_size_bound (entries : List String) (b : Nat) (hb : 0 < b)
    (d : String × List String) (hd : d ∈ split_input_by_source entries b) :
    d.2.length ≤ b := by
  rw [split_eq_flatten_groups] at hd
  rcases List.mem_flatten.mp hd with ⟨dl, hdl, hddl⟩
  rcases List.mem_map.mp hdl with ⟨g, hg, hgd⟩
  exact dirsForGroup_size_le b hb g.1 g.2 d (hgd ▸ hddl)

/-- C2 witness at a concrete input. -/
theorem split_batch_size_bound_witness :
    (("A", ["A_1.txt", "A_2.txt"]) : String × List String).2.length ≤ 2 :=
  split_batch_size_bound ["A_1.txt", "A_2.txt"] 2 (by decide)
    ("A", ["A_1.txt", "A_2.txt"]) (by decide)

/-- C3 counterexample: when the key of a small group names an existing
top-level file — here the non-enumerated file "report", keying the group
of "report_1.txt" — `subdir.mkdir(exist_ok=True)` raises FileExistsError:
the run aborts and the group gets no destination subdirectory at all,
although the claim promises a single subdirectory named by the key. -/
theorem split_group_dir_cex :
    split_input_by_source ["report", "report_1.txt"] 7500
      = [("report", ["report_1.txt"])]
    ∧ runSplit ⟨["report", "report_1.txt"], []⟩ 7500
        = RunResult.mkdirError ⟨["report", "report_1.txt"], []⟩ "report"
    ∧ resultSubdirs (runSplit ⟨["report", "report_1.txt"], []⟩ 7500) = [] :=
  ⟨by decide, by decide, by decide⟩

/-- C3 amended: provided no planned destination name is occupied by an
existing top-level file or directory, the run completes, and each prefix
group of size N contributes exactly ceil(N/B) destination subdirectories,
all present in the final state: a group with N ≤ B gets the single
subdirectory named by the key, a group with N > B gets subdirectories
named `key_part1`, `key_part2`, ..., and any group of 20,000 files with
prefix "PRELIMusc10" and batch size 7,500 yields three directories
holding 7,500, 7,500 and 5,000 files.  When a destination name is
occupied by an existing file, mkdir raises FileExistsError instead and
the group gets no directories (the counterexample). -/
theorem split_group_dir_layout_amended (st : InputDir) (b : Nat) (hb : 0 < b)
    (hnd : st.files.Nodup)
    (_hsub : ∀ d ∈ st.subdirs, matchesTxtGlob d.1 = false)
    (hfresh : ∀ d ∈ split_input_by_source st.files b,
        ¬ d.1 ∈ st.files ∧ ¬ d.1 ∈ st.subdirs.map Prod.fst)
    (g : String × List String)
    (hg : g ∈ filesByKey (st.files.filter matchesTxtGlob)) :
    runSplit st b = RunResult.ok
      ⟨st.files.filter (fun f => !(matchesTxtGlob f)),
       st.subdirs ++ split_input_by_source st.files b⟩
    ∧ (∀ d ∈ dirsForGroup b g.1 g.2,
        d ∈ st.subdirs ++ split_input_by_source st.files b)
    ∧ (dirsForGroup b g.1 g.2).length = (g.2.length + b - 1) / b
    ∧ (g.2.length ≤ b → dirsForGroup b g.1 g.2 = [(g.1, g.2)])
    ∧ (b < g.2.length → (dirsForGroup b g.1 g.2).map Prod.fst
        = (List.range ((g.2.length + b - 1) / b)).map
            (fun i => g.1 ++ "_part" ++ toString (i + 1)))
    ∧ (∀ l : List String, l.length = 20000 →
        (dirsForGroup 7500 "PRELIMusc10" l).map (fun d => (d.1, d.2.length))
          = [("PRELIMusc10_part1", 7500), ("PRELIMusc10_part2", 7500),
             ("PRELIMusc10_part3", 5000)]) := by
  have hgg : g ∈ groupsSpec (st.files.filter matchesTxtGlob) := by
    rwa [filesByKey_eq_groupsSpec] at hg
  have hne : g.2 ≠ [] := groupsSpec_ne_nil _ g hgg
  refine ⟨runSplit_no_collision st b hb hnd hfresh, ?_,
    dirsForGroup_count b hb g.1 g.2 hne, ?_, ?_, dirs_of_20000⟩
  · intro d hd
    exact List.mem_append_right _ (split_mem_of_mem_group st.files b g hg d hd)
  · intro hle
    unfold dirsForGroup
    rw [if_pos hle]
  · intro hlt
    rw [dirsForGroup_names_large b g.1 g.2 hlt,
      chunkList_count b hb g.2.length g.2 (le_refl _)]

/-- C3 amended witness at a concrete input. -/
theorem split_group_dir_layout_amended_witness :
    runSplit ⟨["A_1.txt"], []⟩ 2 = RunResult.ok
      ⟨["A_1.txt"].filter (fun f => !(matchesTxtGlob f)),
       [] ++ split_input_by_source ["A_1.txt"] 2⟩ :=
  (split_group_dir_layout_amended ⟨["A_1.txt"], []⟩ 2 (by decide) (by decide)
    (by decide) (by decide) ("A", ["A_1.txt"]) (by decide)).1

/-- C4: the grouping key of every filename is the substring preceding its
first underscore, and two enumerated files land in the same prefix group
if and only if their keys are equal. -/
theorem split_grouping_key (name f g : String) (entries : List String)
    (hf : f ∈ entries.filter matchesTxtGlob)
    (hg : g ∈ entries.filter matchesTxtGlob) :
    prefixKey name = substrBeforeFirstUnderscore name
    ∧ ('_' ∈ name.data → ∃ rest : List Char,
        name.data = (prefixKey name).data ++ '_' :: rest
          ∧ ¬ '_' ∈ (prefixKey name).data)
    ∧ ((∃ grp ∈ filesByKey (entries.filter matchesTxtGlob),
          f ∈ grp.2 ∧ g ∈ grp.2) ↔ prefixKey f = prefixKey g) := by
  refine ⟨prefixKey_eq_takeWhile name, ?_, ?_⟩
  · intro h
    rcases prefixKey_decomp name h with ⟨rest, hr⟩
    exact ⟨rest, hr, prefixKey_no_underscore name⟩
  · rw [filesByKey_eq_groupsSpec]
    exact same_group_iff _ f g hf hg

/-- C4 witness at a concrete input. -/
theorem split_grouping_key_witness :
    prefixKey "x_y.txt" = substrBeforeFirstUnderscore "x_y.txt" :=
  (split_grouping_key "x_y.txt" "a_1.txt" "a_2.txt" ["a_1.txt", "a_2.txt"]
    (by decide) (by decide)).1

/-- C8 counterexample: a file inside a pre-existing subdirectory does not
always remain unchanged.  Here the existing directory "A" already holds a
file named "A_1.txt"; the run moves the top-level "A_1.txt" into "A" and
`shutil.move` silently replaces the nested file (os.rename): the run
completes, but two distinct files have become one. -/
theorem split_frame_cex :
    runSplit ⟨["A_1.txt"], [("A", ["A_1.txt"])]⟩ 7500
      = RunResult.ok ⟨[], [("A", ["A_1.txt"])]⟩
    ∧ totalFiles ⟨["A_1.txt"], [("A", ["A_1.txt"])]⟩ = 2
    ∧ totalFiles ⟨[], [("A", ["A_1.txt"])]⟩ = 1 :=
  ⟨by decide, by decide, by decide⟩

/-- C8 amended: only top-level entries matching the `*.txt` glob are
enumerated, grouped and moved — every moved file matches the glob,
non-matching entries are moved into no destination, and the moved files
are exactly the matching entries; and provided no planned destination
name is occupied by an existing top-level file or directory, the run
completes with non-matching top-level files still at the top level and
every pre-existing subdirectory and its contents untouched.  Without that
proviso a same-named file inside a pre-existing destination directory is
silently overwritten (the counterexample). -/
theorem split_txt_glob_frame_amended (st : InputDir) (b : Nat) (hb : 0 < b)
    (hnd : st.files.Nodup)
    (_hsub : ∀ d ∈ st.subdirs, matchesTxtGlob d.1 = false)
    (hfresh : ∀ d ∈ split_input_by_source st.files b,
        ¬ d.1 ∈ st.files ∧ ¬ d.1 ∈ st.subdirs.map Prod.fst) :
    (∀ d ∈ split_input_by_source st.files b, ∀ f ∈ d.2, matchesTxtGlob f = true)
    ∧ (∀ f ∈ st.files, matchesTxtGlob f = false →
        ∀ d ∈ split_input_by_source st.files b, ¬ f ∈ d.2)
    ∧ List.Perm ((split_input_by_source st.files b).map Prod.snd).flatten
        (st.files.filter matchesTxtGlob)
    ∧ runSplit st b = RunResult.ok
        ⟨st.files.filter (fun f => !(matchesTxtGlob f)),
         st.subdirs ++ split_input_by_source st.files b⟩ := by
  have hperm := split_flatten_perm st.files b hb
  have hall : ∀ d ∈ split_input_by_source st.files b, ∀ f ∈ d.2,
      matchesTxtGlob f = true := by
    intro d hd f hf
    have hfl : f ∈ ((split_input_by_source st.files b).map Prod.snd).flatten :=
      List.mem_flatten.mpr ⟨d.2, List.mem_map_of_mem Prod.snd hd, hf⟩
    exact List.of_mem_filter (hperm.mem_iff.mp hfl)
  refine ⟨hall, ?_, hperm, runSplit_no_collision st b hb hnd hfresh⟩
  intro f _ hfalse d hd hf
  rw [hall d hd f hf] at hfalse
  simp at hfalse

/-- C8 amended witness at a concrete input. -/
theorem split_txt_glob_frame_amended_witness :
    runSplit ⟨["a_1.txt", "keep.htm"], [("old", ["x"])]⟩ 1 = RunResult.ok
      ⟨["a_1.txt", "keep.htm"].filter (fun f => !(matchesTxtGlob f)),
       [("old", ["x"])] ++ split_input_by_source ["a_1.txt", "keep.htm"] 1⟩ :=
  (split_txt_glob_frame_amended ⟨["a_1.txt", "keep.htm"], [("old", ["x"])]⟩ 1
    (by decide) (by decide) (by decide) (by decide)).2.2.2

/-- C9 counterexample: a file whose name has no underscore is keyed by its
full filename, but it is not always moved into a subdirectory named by
that filename: with batch size 1, "foo.txt" shares its prefix group with
"foo.txt_a.txt", the group overflows, and "foo.txt" lands in
"foo.txt_part1", a directory whose name differs from the filename. -/
theorem no_underscore_subdir_cex :
    prefixKey "foo.txt" = "foo.txt"
    ∧ split_input_by_source ["foo.txt", "foo.txt_a.txt"] 1
        = [("foo.txt_part1", ["foo.txt"]), ("foo.txt_part2", ["foo.txt_a.txt"])]
    ∧ ¬ ∃ d ∈ split_input_by_source ["foo.txt", "foo.txt_a.txt"] 1,
          d.1 = "foo.txt" ∧ "foo.txt" ∈ d.2 :=
  ⟨by decide, by decide, by decide⟩

/-- C9 amended: an enumerated file with no underscore in its name is keyed
by the entire filename, but it is never moved into a destination
subdirectory whose name equals the full filename: when its prefix group
fits within the batch size, the script calls mkdir on the path still
occupied by the file itself, so FileExistsError aborts the run; and when
the group exceeds the batch size, every destination holding the file is a
part-suffixed directory whose name differs from the filename. -/
theorem no_underscore_no_own_dir (name : String) (st : InputDir) (b : Nat)
    (hb : 0 < b) (hnd : st.files.Nodup)
    (_hsub : ∀ d ∈ st.subdirs, matchesTxtGlob d.1 = false)
    (hnu : ¬ '_' ∈ name.data) (hmem : name ∈ st.files)
    (htxt : matchesTxtGlob name = true) :
    prefixKey name = name
    ∧ (((st.files.filter matchesTxtGlob).filter
          (fun x => decide (prefixKey x = name))).length ≤ b →
        (runSplit st b).completed = false)
    ∧ (b < ((st.files.filter matchesTxtGlob).filter
          (fun x => decide (prefixKey x = name))).length →
        ∀ d ∈ split_input_by_source st.files b, name ∈ d.2 → ¬ d.1 = name) := by
  have hkey := prefixKey_of_no_underscore name hnu
  have hmemtxt : name ∈ st.files.filter matchesTxtGlob :=
    List.mem_filter.mpr ⟨hmem, htxt⟩
  have hperm := groupsSpec_flatten_perm (st.files.filter matchesTxtGlob)
  have hfl : name ∈ ((groupsSpec (st.files.filter matchesTxtGlob)).map Prod.snd).flatten :=
    hperm.mem_iff.mpr hmemtxt
  rcases List.mem_flatten.mp hfl with ⟨m, hm, hnm⟩
  rcases List.mem_map.mp hm with ⟨grp, hgrp, hms⟩
  have hnmem : name ∈ grp.2 := hms ▸ hnm
  have hgkey : grp.1 = name := by
    have := groupsSpec_key_eq _ grp hgrp name hnmem
    rw [hkey] at this
    exact this.symm
  have hgfiles : grp.2 = (st.files.filter matchesTxtGlob).filter
      (fun x => decide (prefixKey x = name)) := by
    have := groupsSpec_group_eq_filter _ grp hgrp
    rw [hgkey] at this
    exact this
  refine ⟨hkey, ?_, ?_⟩
  · intro hsmall
    have hsingle : dirsForGroup b grp.1 grp.2 = [(grp.1, grp.2)] := by
      unfold dirsForGroup
      rw [if_pos (by rw [hgfiles]; exact hsmall)]
    have hd : (name, grp.2) ∈ split_input_by_source st.files b := by
      have hgf : grp ∈ filesByKey (st.files.filter matchesTxtGlob) := by
        rwa [← filesByKey_eq_groupsSpec] at hgrp
      have := split_mem_of_mem_group st.files b grp hgf (grp.1, grp.2)
        (by rw [hsingle]; simp)
      rwa [hgkey] at this
    have hcount := split_countP_one st.files b hb hnd name hmemtxt
    rcases List.append_of_mem hd with ⟨pre, post, hplan⟩
    have hpre : ∀ p ∈ pre, ¬ name ∈ p.2 := by
      rw [hplan, List.countP_append, List.countP_cons] at hcount
      simp only [hnmem, decide_True, if_true] at hcount
      intro p hp hcontra
      have hpos : 0 < pre.countP (fun d => decide (name ∈ d.2)) :=
        List.countP_pos_iff.mpr ⟨p, hp, by simp [hcontra]⟩
      omega
    unfold runSplit
    rw [hplan]
    exact runDests_never_ok pre name grp.2 post st hmem hpre
  · intro hlt d hd hnamein hdname
    rw [split_eq_flatten_groups] at hd
    rcases List.mem_flatten.mp hd with ⟨dl, hdl, hddl⟩
    rcases List.mem_map.mp hdl with ⟨g2, hg2, rfl⟩
    have hn2 : name ∈ g2.2 := by
      have hmf : name ∈ ((dirsForGroup b g2.1 g2.2).map Prod.snd).flatten :=
        List.mem_flatten.mpr ⟨d.2, List.mem_map_of_mem Prod.snd hddl, hnamein⟩
      rwa [dirsForGroup_flatten b hb] at hmf
    have hg2key : g2.1 = name := by
      have := groupsSpec_key_eq _ g2 hg2 name hn2
      rw [hkey] at this
      exact this.symm
    have hg2grp : g2 = grp :=
      nodup_keys_unique (groupsSpec_nodup_keys _) hg2 hgrp (by rw [hg2key, hgkey])
    have hlt2 : b < g2.2.length := by
      rw [hg2grp, hgfiles]
      exact hlt
    unfold dirsForGroup at hddl
    rw [if_neg (by omega)] at hddl
    rcases List.mem_map.mp hddl with ⟨ic, _, hform⟩
    have hfinal : name ++ "_part" ++ toString (ic.1 + 1) = name := by
      have h1 := congrArg Prod.fst hform
      rw [hg2key] at h1
      exact h1.trans hdname
    have hlen := congrArg String.length hfinal
    rw [String.length_append, String.length_append] at hlen
    have h5 : ("_part" : String).length = 5 := rfl
    rw [h5] at hlen
    omega

/-- C9 amended witness at a concrete input. -/
theorem no_underscore_no_own_dir_witness :
    (runSplit ⟨["foo.txt"], []⟩ 1).completed = false :=
  (no_underscore_no_own_dir "foo.txt" ⟨["foo.txt"], []⟩ 1 (by decide) (by decide)
    (by decide) (by decide) (by decide) (by decide)).2.1 (by decide)

/-! ### Orchestration model for data_ingestion.py and test-integration.py

The scripts shell out to the external tool.  The model records, for a
given workspace filesystem state and a scenario fixing the outcome of each
external command, which subprocesses the script starts, whose captured
standard error it prints, and how the script ends. -/

/-- External subprocess invocations the scripts can make. -/
inductive Step where
  | init
  | promptTune
  | indexRun
  | query
  deriving DecidableEq

/-- Outcome an external command produces when started. -/
structure ProcOutcome where
  exitCode : Nat
  stdout : String
  stderr : String
  deriving DecidableEq

/-- Outcomes of each external command, fixed up front. -/
structure Scenario where
  initOut : ProcOutcome
  tuneOut : ProcOutcome
  indexOut : ProcOutcome
  queryOut : ProcOutcome
  deriving DecidableEq

/-- Workspace filesystem state read by the scripts: whether .env and
settings.yaml exist, and the contents of the prompts and output
directories (`none` meaning the directory does not exist). -/
structure WorkspaceFS where
  envFile : Bool
  settingsFile : Bool
  promptsDir : Option (List String)
  outputDir : Option (List String)
  deriving DecidableEq

/-- How a script run ends: normal completion, or an uncaught error raised
at the given step. -/
inductive ScriptEnd where
  | completed
  | raised (s : Step)
  deriving DecidableEq

/-- Observable behaviour of one script run. -/
structure ScriptRun where
  steps : List Step
  printedStderr : List Step
  outcome : ScriptEnd
  deriving DecidableEq

/-- The three artifact files checked by test-integration.py line 147. -/
def keyArtifacts : List String :=
  ["entities.parquet", "relationships.parquet", "communities.parquet"]

/-- Embedding of the indexing-completeness check of test-integration.py
lines 142-152: the output directory exists and at least 2 of the 3 key
artifact files exist inside it. -/
def indexing_complete (fs : WorkspaceFS) : Bool :=
  match fs.outputDir with
  | none => false
  | some files =>
      decide (2 ≤ (keyArtifacts.filter (fun f => decide (f ∈ files))).length)

/-- Existence of one artifact file in the workspace output directory. -/
def artifactExists (fs : WorkspaceFS) (f : String) : Bool :=
  match fs.outputDir with
  | none => false
  | some files => decide (f ∈ files)

theorem indexing_complete_iff (fs : WorkspaceFS) :
    indexing_complete fs
      = decide (2 ≤ (keyArtifacts.filter (artifactExists fs)).length) := by
  cases h : fs.outputDir with
  | none =>
    have he : artifactExists fs = fun _ => false := by
      funext f
      simp [artifactExists, h]
    simp [indexing_complete, h, he, keyArtifacts]
  | some files =>
    have he : artifactExists fs = fun f => decide (f ∈ files) := by
      funext f
      simp [artifactExists, h]
    simp [indexing_complete, h, he]

/-- The condition the spec attributes to prompt-tuning resumability: the
prompts directory exists and os.listdir finds it non-empty.  This check
appears only inside the commented-out block of test-integration.py
(lines 100-138); no live code evaluates it. -/
def promptsDirPopulated (fs : WorkspaceFS) : Bool :=
  match fs.promptsDir with
  | none => false
  | some files => decide (files ≠ [])

/-- Embedding of run_auto_prompt_tuning (data_ingestion.py lines 36-80):
the prompt-tune subprocess runs with captured output; on a non-zero exit
the except branch prints the captured stderr and the function returns
false.  It never re-raises.  The first component is the returned boolean,
the second the steps whose stderr got printed. -/
def run_auto_prompt_tuning (out : ProcOutcome) : Bool × List Step :=
  if out.exitCode ≠ 0 then (false, [Step.promptTune]) else (true, [])

/-- Continuation of data_ingestion.py after the init phase (lines
158-193): prompt tuning runs unconditionally and its failure only selects
a warning message; indexing runs unconditionally with check=True and no
capture, so a failure is an uncaught error; the query runs with captured
output and on failure prints stdout and stderr and re-raises. -/
def ingestionAfterInit (pre : List Step) (sc : Scenario) : ScriptRun :=
  let tuneResult := run_auto_prompt_tuning sc.tuneOut
  if sc.indexOut.exitCode ≠ 0 then
    { steps := pre ++ [Step.promptTune, Step.indexRun]
      printedStderr := tuneResult.2
      outcome := ScriptEnd.raised Step.indexRun }
  else if sc.queryOut.exitCode ≠ 0 then
    { steps := pre ++ [Step.promptTune, Step.indexRun, Step.query]
      printedStderr := tuneResult.2 ++ [Step.query]
      outcome := ScriptEnd.raised Step.query }
  else
    { steps := pre ++ [Step.promptTune, Step.indexRun, Step.query]
      printedStderr := tuneResult.2
      outcome := ScriptEnd.completed }

/-- Embedding of the live top-level flow of data_ingestion.py: initialize
the workspace when .env or settings.yaml is missing (lines 15-19,
check=True, no capture), then tune, index and query. -/
def data_ingestion_run (fs : WorkspaceFS) (sc : Scenario) : ScriptRun :=
  if fs.envFile && fs.settingsFile then ingestionAfterInit [] sc
  else if sc.initOut.exitCode ≠ 0 then
    { steps := [Step.init], printedStderr := [], outcome := ScriptEnd.raised Step.init }
  else ingestionAfterInit [Step.init] sc

/-- Embedding of the live top-level flow of test-integration.py (lines
140-183).  Everything between lines 100 and 138 — chunk generation,
workspace init and the prompt-tuning block — sits inside a string literal
and never executes.  The script computes indexing_complete, runs the
indexing subprocess only when it is false (check=True, no capture), and
runs the query with captured output, printing stdout and stderr and
re-raising on failure. -/
def test_integration_run (fs : WorkspaceFS) (sc : Scenario) : ScriptRun :=
  let idx : List Step := if indexing_complete fs then [] else [Step.indexRun]
  if indexing_complete fs = false ∧ sc.indexOut.exitCode ≠ 0 then
    { steps := [Step.indexRun], printedStderr := [], outcome := ScriptEnd.raised Step.indexRun }
  else if sc.queryOut.exitCode ≠ 0 then
    { steps := idx ++ [Step.query], printedStderr := [Step.query]
      outcome := ScriptEnd.raised Step.query }
  else
    { steps := idx ++ [Step.query], printedStderr := []
      outcome := ScriptEnd.completed }

/-- A workspace state in which every resumability condition of C5 holds:
the workspace is initialized, the prompts directory is populated and all
three indexing artifacts exist. -/
def fsResumeExample : WorkspaceFS :=
  { envFile := true
    settingsFile := true
    promptsDir := some ["entity_extraction.txt"]
    outputDir := some keyArtifacts }

/-- A scenario in which every external command succeeds. -/
def scAllOk : Scenario :=
  { initOut := ⟨0, "", ""⟩
    tuneOut := ⟨0, "", ""⟩
    indexOut := ⟨0, "", ""⟩
    queryOut := ⟨0, "", ""⟩ }

/-- A scenario in which only the prompt-tune command fails. -/
def scTuneFails : Scenario :=
  { initOut := ⟨0, "", ""⟩
    tuneOut := ⟨1, "", "tuning stderr"⟩
    indexOut := ⟨0, "", ""⟩
    queryOut := ⟨0, "", ""⟩ }

/-! ### Claim theorems for the orchestration -/

/-- C5 counterexample: with the prompts directory populated (and even all
three artifacts present in the output directory), data_ingestion.py still
starts the prompt-tuning subprocess, and also still starts the indexing
subprocess.  The prompts-directory skip the claim describes lives only in
the commented-out block of test-integration.py. -/
theorem resume_skip_cex :
    promptsDirPopulated fsResumeExample = true
    ∧ indexing_complete fsResumeExample = true
    ∧ Step.promptTune ∈ (data_ingestion_run fsResumeExample scAllOk).steps
    ∧ Step.indexRun ∈ (data_ingestion_run fsResumeExample scAllOk).steps :=
  ⟨by decide, by decide, by decide, by decide⟩

/-- C5 amended: test-integration.py skips the indexing subprocess exactly
when at least 2 of the 3 artifact files exist in the output directory;
data_ingestion.py performs no resumability check at all: whenever its init
phase passes, it starts the prompt-tuning subprocess and then the indexing
subprocess regardless of the prompts or output directories. -/
theorem resume_skip_amended (fs : WorkspaceFS) (sc : Scenario)
    (hinit : fs.envFile = true ∧ fs.settingsFile = true) :
    ((Step.indexRun ∈ (test_integration_run fs sc).steps)
      ↔ ¬ 2 ≤ (keyArtifacts.filter (artifactExists fs)).length)
    ∧ Step.promptTune ∈ (data_ingestion_run fs sc).steps
    ∧ Step.indexRun ∈ (data_ingestion_run fs sc).steps := by
  obtain ⟨he, hs⟩ := hinit
  have hti : (Step.indexRun ∈ (test_integration_run fs sc).steps)
      ↔ indexing_complete fs = false := by
    by_cases hic : indexing_complete fs
    · by_cases hq : sc.queryOut.exitCode ≠ 0 <;>
        simp [test_integration_run, hic, hq]
    · rw [Bool.not_eq_true] at hic
      by_cases hx : sc.indexOut.exitCode ≠ 0
      · simp [test_integration_run, hic, hx]
      · by_cases hq : sc.queryOut.exitCode ≠ 0 <;>
          simp [test_integration_run, hic, hx, hq]
  constructor
  · rw [hti, indexing_complete_iff]
    simp
  · have hrun : data_ingestion_run fs sc = ingestionAfterInit [] sc := by
      simp [data_ingestion_run, he, hs]
    rw [hrun]
    by_cases hx : sc.indexOut.exitCode ≠ 0
    · simp [ingestionAfterInit, hx]
    · by_cases hq : sc.queryOut.exitCode ≠ 0 <;>
        simp [ingestionAfterInit, hx, hq]

/-- C5 amended witness at a concrete input. -/
theorem resume_skip_amended_witness :
    Step.promptTune ∈ (data_ingestion_run fsResumeExample scAllOk).steps :=
  (resume_skip_amended fsResumeExample scAllOk ⟨by decide, by decide⟩).2.1

/-- C6 counterexample: when the prompt-tune subprocess exits non-zero,
data_ingestion.py prints the captured stderr but does not re-raise: the
run continues through indexing and the query and completes normally. -/
theorem nonzero_exit_cex :
    scTuneFails.tuneOut.exitCode ≠ 0
    ∧ (data_ingestion_run fsResumeExample scTuneFails).printedStderr
        = [Step.promptTune]
    ∧ (data_ingestion_run fsResumeExample scTuneFails).steps
        = [Step.promptTune, Step.indexRun, Step.query]
    ∧ (data_ingestion_run fsResumeExample scTuneFails).outcome
        = ScriptEnd.completed :=
  ⟨by decide, by decide, by decide, by decide⟩

/-- C6 amended: only the query invocations print the captured stderr and
re-raise, terminating the script.  A failing prompt-tune invocation prints
its captured stderr but is swallowed — the script continues into indexing
and can complete.  Failing init or indexing invocations terminate the
script with an uncaught error, with no captured stderr printed by the
script. -/
theorem nonzero_exit_amended (fs : WorkspaceFS) (sc : Scenario) :
    (fs.envFile = true → fs.settingsFile = true →
      sc.indexOut.exitCode = 0 → sc.queryOut.exitCode ≠ 0 →
      (data_ingestion_run fs sc).outcome = ScriptEnd.raised Step.query
      ∧ Step.query ∈ (data_ingestion_run fs sc).printedStderr)
    ∧ (fs.envFile = true → fs.settingsFile = true → sc.tuneOut.exitCode ≠ 0 →
      Step.promptTune ∈ (data_ingestion_run fs sc).printedStderr
      ∧ Step.indexRun ∈ (data_ingestion_run fs sc).steps
      ∧ (data_ingestion_run fs sc).outcome ≠ ScriptEnd.raised Step.promptTune)
    ∧ (fs.envFile = true → fs.settingsFile = true → sc.indexOut.exitCode ≠ 0 →
      (data_ingestion_run fs sc).outcome = ScriptEnd.raised Step.indexRun
      ∧ ¬ Step.indexRun ∈ (data_ingestion_run fs sc).printedStderr)
    ∧ (fs.envFile = false → sc.initOut.exitCode ≠ 0 →
      (data_ingestion_run fs sc).outcome = ScriptEnd.raised Step.init
      ∧ (data_ingestion_run fs sc).printedStderr = [])
    ∧ (indexing_complete fs = false → sc.indexOut.exitCode ≠ 0 →
      (test_integration_run fs sc).outcome = ScriptEnd.raised Step.indexRun
      ∧ (test_integration_run fs sc).printedStderr = [])
    ∧ (sc.indexOut.exitCode = 0 → sc.queryOut.exitCode ≠ 0 →
      (test_integration_run fs sc).outcome = ScriptEnd.raised Step.query
      ∧ Step.query ∈ (test_integration_run fs sc).printedStderr) := by
  refine ⟨?_, ?_, ?_, ?_, ?_, ?_⟩
  · intro he hs hx hq
    constructor <;>
      simp [data_ingestion_run, ingestionAfterInit, run_auto_prompt_tuning, he, hs, hx, hq]
  · intro he hs ht
    refine ⟨?_, ?_, ?_⟩ <;>
      by_cases hx : sc.indexOut.exitCode ≠ 0 <;>
        by_cases hq : sc.queryOut.exitCode ≠ 0 <;>
          simp [data_ingestion_run, ingestionAfterInit, run_auto_prompt_tuning,
            he, hs, ht, hx, hq]
  · intro he hs hx
    constructor <;>
      by_cases ht : sc.tuneOut.exitCode ≠ 0 <;>
        simp [data_ingestion_run, ingestionAfterInit, run_auto_prompt_tuning,
          he, hs, hx, ht]
  · intro he hi
    constructor <;> simp [data_ingestion_run, he, hi]
  · intro hic hx
    constructor <;> simp [test_integration_run, hic, hx]
  · intro hx hq
    constructor <;>
      by_cases hic : indexing_complete fs <;>
        simp [test_integration_run, hic, hx, hq]

/-- C6 amended witness at a concrete input. -/
theorem nonzero_exit_amended_witness :
    Step.promptTune ∈ (data_ingestion_run fsResumeExample scTuneFails).printedStderr :=
  ((nonzero_exit_amended fsResumeExample scTuneFails).2.1 (by decide) (by decide)
    (by decide)).1

/-! ### Decoding model for parse_html_to_chunks -/

/-- The encoding fallback list of data_ingestion.py line 98. -/
def encodingsList : List String := ["utf-8", "latin-1", "windows-1252", "iso-8859-1"]

/-- Embedding of the decoding loop of parse_html_to_chunks
(data_ingestion.py lines 101-108): `dec` gives the decode result of the
file bytes under each encoding name, `none` standing for a
UnicodeDecodeError; the loop keeps the first success and breaks. -/
def tryEncodings (dec : String → Option String) : List String → Option String
  | [] => none
  | e :: es =>
    match dec e with
    | some s => some s
    | none => tryEncodings dec es

/-- Embedding of the read phase of parse_html_to_chunks (data_ingestion.py
lines 97-111): html_str is the first successful decode, and the function
raises ValueError exactly when html_str is still None after the loop. -/
def readHtmlWithFallback (dec : String → Option String) : Except String String :=
  match tryEncodings dec encodingsList with
  | some s => Except.ok s
  | none => Except.error "could not decode"

theorem tryEncodings_eq_none (dec : String → Option String) :
    ∀ es : List String, tryEncodings dec es = none ↔ ∀ e ∈ es, dec e = none := by
  intro es
  induction es with
  | nil => simp [tryEncodings]
  | cons e es ih =>
    cases h : dec e with
    | none => simp [tryEncodings, h, ih]
    | some s => simp [tryEncodings, h]

theorem tryEncodings_eq_some (dec : String → Option String) :
    ∀ es : List String, ∀ s : String, tryEncodings dec es = some s →
      ∃ e ∈ es, dec e = some s := by
  intro es
  induction es with
  | nil =>
    intro s h
    simp [tryEncodings] at h
  | cons e es ih =>
    intro s h
    cases hd : dec e with
    | some t =>
      simp [tryEncodings, hd] at h
      exact ⟨e, by simp, by rw [hd, h]⟩
    | none =>
      simp [tryEncodings, hd] at h
      rcases ih s h with ⟨e2, he2, hde⟩
      exact ⟨e2, by simp [he2], hde⟩

/-- Embedding of the read phase of the test-integration.py copy of
parse_html_to_chunks (lines 86-89): the file is opened with utf-8 only and
read; a UnicodeDecodeError propagates out of the function, and no other
encoding is ever attempted. -/
def readHtmlUtf8Only (dec : String → Option String) : Except String String :=
  match dec "utf-8" with
  | some s => Except.ok s
  | none => Except.error "UnicodeDecodeError"

/-- C7 amended: the data_ingestion.py copy of parse_html_to_chunks tries
utf-8, latin-1, windows-1252 and iso-8859-1 in that order, returns the
first decode that succeeds, and raises exactly when every encoding in the
sequence fails; the test-integration.py copy instead reads with utf-8 only
and fails precisely when utf-8 fails, attempting no fallback. -/
theorem decode_fallback_behaviour (dec : String → Option String) :
    (readHtmlWithFallback dec = Except.error "could not decode"
      ↔ ∀ e ∈ encodingsList, dec e = none)
    ∧ (∀ s : String, readHtmlWithFallback dec = Except.ok s →
        ∃ e ∈ encodingsList, dec e = some s)
    ∧ (∀ s : String, dec "utf-8" = some s →
        readHtmlWithFallback dec = Except.ok s)
    ∧ (∀ s : String, dec "utf-8" = none → dec "latin-1" = some s →
        readHtmlWithFallback dec = Except.ok s)
    ∧ (∀ s : String, dec "utf-8" = none → dec "latin-1" = none →
        dec "windows-1252" = some s → readHtmlWithFallback dec = Except.ok s)
    ∧ (∀ s : String, dec "utf-8" = none → dec "latin-1" = none →
        dec "windows-1252" = none → dec "iso-8859-1" = some s →
        readHtmlWithFallback dec = Except.ok s)
    ∧ (∀ s : String, dec "utf-8" = some s → readHtmlUtf8Only dec = Except.ok s)
    ∧ (dec "utf-8" = none →
        readHtmlUtf8Only dec = Except.error "UnicodeDecodeError") := by
  refine ⟨?_, ?_, ?_, ?_, ?_, ?_, ?_, ?_⟩
  · cases ht : tryEncodings dec encodingsList with
    | none =>
      have hr : readHtmlWithFallback dec = Except.error "could not decode" := by
        simp [readHtmlWithFallback, ht]
      rw [hr]
      constructor
      · intro _
        exact (tryEncodings_eq_none dec encodingsList).mp ht
      · intro _
        rfl
    | some s =>
      have hr : readHtmlWithFallback dec = Except.ok s := by
        simp [readHtmlWithFallback, ht]
      rw [hr]
      constructor
      · intro h
        exact absurd h (by simp)
      · intro hall
        have hnone := (tryEncodings_eq_none dec encodingsList).mpr hall
        rw [ht] at hnone
        exact absurd hnone (by simp)
  · intro s hok
    cases ht : tryEncodings dec encodingsList with
    | none =>
      have hr : readHtmlWithFallback dec = Except.error "could not decode" := by
        simp [readHtmlWithFallback, ht]
      rw [hr] at hok
      exact absurd hok (by simp)
    | some t =>
      have hr : readHtmlWithFallback dec = Except.ok t := by
        simp [readHtmlWithFallback, ht]
      rw [hr] at hok
      have hts : t = s := by simpa using hok
      exact tryEncodings_eq_some dec encodingsList s (hts ▸ ht)
  · intro s h0
    simp [readHtmlWithFallback, encodingsList, tryEncodings, h0]
  · intro s h0 h1
    simp [readHtmlWithFallback, encodingsList, tryEncodings, h0, h1]
  · intro s h0 h1 h2
    simp [readHtmlWithFallback, encodingsList, tryEncodings, h0, h1, h2]
  · intro s h0 h1 h2 h3
    simp [readHtmlWithFallback, encodingsList, tryEncodings, h0, h1, h2, h3]
  · intro s h0
    simp [readHtmlUtf8Only, h0]
  · intro h0
    simp [readHtmlUtf8Only, h0]

/-- A decode oracle under which only latin-1 succeeds. -/
def decLatinOnly : String → Option String :=
  fun e => if e = "latin-1" then some "page" else none

/-- C7 counterexample: for a file that utf-8 rejects but latin-1 decodes,
the test-integration.py copy of parse_html_to_chunks raises even though
not every encoding of the sequence fails — it attempts no fallback — while
the data_ingestion.py copy succeeds via latin-1. -/
theorem decode_fallback_cex :
    decLatinOnly "utf-8" = none
    ∧ decLatinOnly "latin-1" = some "page"
    ∧ readHtmlUtf8Only decLatinOnly = Except.error "UnicodeDecodeError"
    ∧ readHtmlWithFallback decLatinOnly = Except.ok "page" :=
  ⟨by decide, by decide, by rfl, by rfl⟩

/-- C7 amended witness at a concrete input. -/
theorem decode_fallback_behaviour_witness :
    readHtmlWithFallback decLatinOnly = Except.ok "page" :=
  (decode_fallback_behaviour decLatinOnly).2.2.2.1 "page" (by decide) (by decide)

/-- Model of the latin-1 (and iso-8859-1) text codec of the Python
standard library: every byte 0-255 decodes to the Unicode code point of
the same value, so decoding never fails on any byte string.  The utf-8
and windows-1252 codecs can reject input, so their results stay abstract
oracle parameters. -/
def latin1Decode (bs : List (Fin 256)) : String :=
  String.mk (bs.map (fun b => Char.ofNat b.val))

/-- Decode results of the four encodings in the fallback list for a file
whose raw content is the byte string `bs`. -/
def pythonDecode (utf8Result cp1252Result : Option String) (bs : List (Fin 256)) :
    String → Option String := fun enc =>
  if enc = "utf-8" then utf8Result
  else if enc = "latin-1" then some (latin1Decode bs)
  else if enc = "windows-1252" then cp1252Result
  else if enc = "iso-8859-1" then some (latin1Decode bs)
  else none

/-- C10: the could-not-decode branch of parse_html_to_chunks is
unreachable: latin-1 decodes every possible byte string, so whatever the
utf-8 and windows-1252 codecs return, the loop always binds html_str and
the ValueError is never raised. -/
theorem decode_error_unreachable (utf8Result cp1252Result : Option String)
    (bs : List (Fin 256)) :
    ∃ s : String, readHtmlWithFallback (pythonDecode utf8Result cp1252Result bs)
      = Except.ok s := by
  cases utf8Result with
  | none =>
    refine ⟨latin1Decode bs, ?_⟩
    simp [readHtmlWithFallback, tryEncodings, encodingsList, pythonDecode]
  | some s =>
    refine ⟨s, ?_⟩
    simp [readHtmlWithFallback, tryEncodings, encodingsList, pythonDecode]

end FullKg
